import Mathlib

/-!
Verification of the primesieve repository's natural-language specification
against a shallow embedding of its source code.

The embedding covers:
* the pmath helpers `inBetween`, `floorPow2`, `isPowerOf2` (their header is not
  part of the source tree; they are modelled from the spec's words),
* the range checks of `PrimeSieve::setStartNumber` / `setStopNumber` / `sieve`,
* `PrimeSieve::setSieveSize`,
* the small-prime / small-k-tuplet pre-list of `PrimeSieve::sieve` and
  `PrimeSieve::doSmallPrime`,
* the public API `set_sieve_size` / `get_sieve_size`, `set_num_threads` /
  `get_num_threads`, `count_primes` (api.cpp),
* the CPU-info model used by `get_sieve_size(stop)` and the exception-catching
  constructor of `CpuInfo`,
* the 16-bit trial-division prime generator loop of `PrimeSieve::sieve`.
-/

namespace Primesieve

/-! ## pmath helpers -/

/-- Modelled from the spec: `inBetween(min, x, max)` from the missing pmath
header clamps `x` to `[min, max]` ("clamped to [8, 4096]", "clamped to
[1, max_hw_threads]").  Integer version. -/
def inBetween (lo x hi : ℤ) : ℤ :=
  if x < lo then lo else if hi < x then hi else x

/-- Modelled from the spec: `inBetween` on unsigned values. -/
def inBetweenN (lo x hi : ℕ) : ℕ :=
  if x < lo then lo else if hi < x then hi else x

/-- Fuel-driven base-2 logarithm (the fuel keeps the recursion structural, so
that the kernel can evaluate it). -/
def log2Aux : ℕ → ℕ → ℕ
  | 0, _ => 0
  | fuel + 1, n => if n ≤ 1 then 0 else log2Aux fuel (n / 2) + 1

/-- Base-2 logarithm, `⌊log₂ n⌋` for `n ≥ 1`. -/
def log2Nat (n : ℕ) : ℕ :=
  log2Aux n n

/-- Modelled from the spec: `floorPow2` from the missing pmath header rounds a
positive value down to a power of two ("rounded down to power of two"). -/
def floorPow2 (n : ℕ) : ℕ :=
  2 ^ log2Nat n

/-- Modelled from the spec: `isPowerOf2` from the missing pmath header tests
whether a value is a power of two. -/
def isPowerOf2 (n : ℕ) : Bool :=
  decide (n = 2 ^ log2Nat n)

theorem log2Aux_spec :
    ∀ fuel n : ℕ, n ≤ fuel → 1 ≤ n →
      2 ^ log2Aux fuel n ≤ n ∧ n < 2 ^ (log2Aux fuel n + 1) := by
  intro fuel
  induction fuel with
  | zero => intro n h1 h2; omega
  | succ fuel ih =>
    intro n h1 h2
    by_cases hn : n ≤ 1
    · have : n = 1 := by omega
      subst this
      simp [log2Aux]
    · have h2' : 1 ≤ n / 2 := by omega
      have h1' : n / 2 ≤ fuel := by omega
      obtain ⟨ha, hb⟩ := ih (n / 2) h1' h2'
      have hstep : log2Aux (fuel + 1) n = log2Aux fuel (n / 2) + 1 := by
        simp [log2Aux, hn]
      rw [hstep]
      constructor
      · have : 2 ^ (log2Aux fuel (n / 2) + 1) = 2 * 2 ^ log2Aux fuel (n / 2) := by ring
        rw [this]
        omega
      · have : 2 ^ (log2Aux fuel (n / 2) + 1 + 1) = 2 * 2 ^ (log2Aux fuel (n / 2) + 1) := by
          ring
        rw [this]
        omega

theorem log2Nat_spec {n : ℕ} (h : 1 ≤ n) :
    2 ^ log2Nat n ≤ n ∧ n < 2 ^ (log2Nat n + 1) :=
  log2Aux_spec n n le_rfl h

theorem floorPow2_le {n : ℕ} (h : n ≠ 0) : floorPow2 n ≤ n :=
  (log2Nat_spec (by omega)).1

theorem le_floorPow2 {k n : ℕ} (h : 2 ^ k ≤ n) : 2 ^ k ≤ floorPow2 n := by
  have hn : 1 ≤ n := le_trans (Nat.one_le_two_pow) h
  obtain ⟨_, hb⟩ := log2Nat_spec hn
  have hk : k < log2Nat n + 1 := by
    by_contra hk
    push_neg at hk
    have : 2 ^ (log2Nat n + 1) ≤ 2 ^ k := Nat.pow_le_pow_right (by norm_num) hk
    omega
  exact Nat.pow_le_pow_right (by norm_num) (by omega)

theorem log2Nat_pow (k : ℕ) : log2Nat (2 ^ k) = k := by
  have h1 : 1 ≤ 2 ^ k := Nat.one_le_two_pow
  obtain ⟨ha, hb⟩ := log2Nat_spec h1
  have hle : log2Nat (2 ^ k) ≤ k := by
    by_contra hc
    push_neg at hc
    have : 2 ^ (k + 1) ≤ 2 ^ log2Nat (2 ^ k) := Nat.pow_le_pow_right (by norm_num) hc
    have h2 : (2 : ℕ) ^ k < 2 ^ (k + 1) := Nat.pow_lt_pow_right (by norm_num) (by omega)
    omega
  have hge : k ≤ log2Nat (2 ^ k) := by
    by_contra hc
    push_neg at hc
    have : 2 ^ (log2Nat (2 ^ k) + 1) ≤ 2 ^ k := Nat.pow_le_pow_right (by norm_num) (by omega)
    omega
  omega

theorem isPowerOf2_iff (n : ℕ) : isPowerOf2 n = true ↔ ∃ k, n = 2 ^ k := by
  unfold isPowerOf2
  simp only [decide_eq_true_eq]
  constructor
  · intro h
    exact ⟨log2Nat n, h⟩
  · rintro ⟨k, rfl⟩
    rw [log2Nat_pow]

theorem isPowerOf2_floorPow2 (n : ℕ) : isPowerOf2 (floorPow2 n) = true := by
  rw [isPowerOf2_iff]
  exact ⟨log2Nat n, rfl⟩

theorem floorPow2_pow (k : ℕ) : floorPow2 (2 ^ k) = 2 ^ k := by
  unfold floorPow2
  rw [log2Nat_pow]

theorem inBetweenN_mem {lo x hi : ℕ} (h : lo ≤ hi) :
    lo ≤ inBetweenN lo x hi ∧ inBetweenN lo x hi ≤ hi := by
  unfold inBetweenN
  split <;> [omega; (split <;> omega)]

/-! ## PrimeSieve range checks (soe/PrimeSieve.cpp)

`setStartNumber` and `setStopNumber` reject values `≥ UINT64_MAX - UINT32_MAX * 10`,
and `sieve()` rejects `stopNumber_ < startNumber_`. -/

/-- The exact bound used by `PrimeSieve::setStartNumber` / `setStopNumber`:
`UINT64_MAX - UINT32_MAX * 10`. -/
def sieveLimit : ℕ := (2 ^ 64 - 1) - (2 ^ 32 - 1) * 10

/-- `PrimeSieve::setStartNumber`: throws for `startNumber ≥ sieveLimit`. -/
def setStartNumber (n : ℕ) : Except String ℕ :=
  if sieveLimit ≤ n then .error "START must be < (2^64-1) - (2^32-1) * 10"
  else .ok n

/-- `PrimeSieve::setStopNumber`: throws for `stopNumber ≥ sieveLimit`. -/
def setStopNumber (n : ℕ) : Except String ℕ :=
  if sieveLimit ≤ n then .error "STOP must be < (2^64-1) - (2^32-1) * 10"
  else .ok n

/-- Whether an `Except` carries a success value. -/
def isOkE {α : Type} (e : Except String α) : Bool :=
  match e with
  | .ok _ => true
  | .error _ => false

/-- Setting a sieving range and starting `PrimeSieve::sieve()`: first
`setStartNumber`, then `setStopNumber`, then `sieve`'s own check
`stopNumber_ < startNumber_`. -/
def rangeCheck (start stop : ℕ) : Except String Unit :=
  match setStartNumber start with
  | .error e => .error e
  | .ok _ =>
    match setStopNumber stop with
    | .error e => .error e
    | .ok _ => if stop < start then .error "STOP must be >= START" else .ok ()

/-! ## PrimeSieve::setSieveSize (soe/PrimeSieve.cpp) -/

/-- `PrimeSieve::setSieveSize`: throws for sizes outside `[1, 8192]` KiB and
for sizes that are not a power of two; otherwise stores the size in bytes. -/
def psSetSieveSize (k : ℕ) : Except String ℕ :=
  if k < 1 ∨ 8192 < k then .error "sieve size must be >= 1 and <= 8192 KiloBytes"
  else if ¬ isPowerOf2 k then .error "sieve size must be a power of 2"
  else .ok (k * 1024)

/-! ## Public API: sieve size and thread count (src/api.cpp) -/

/-- `set_sieve_size(kilobytes)`: the stored global sieve size after the call,
`floorPow2(inBetween(8, kilobytes, 4096))`. -/
def apiSetSieveSize (k : ℤ) : ℕ :=
  (inBetween 8 k 4096).toNat |> floorPow2

/-- `set_num_threads(threads)`: the stored global thread count after the call,
`inBetween(1, threads, ParallelSieve::getMaxThreads())`.  The hardware thread
count `maxT` is a parameter (its source is not in the tree). -/
def apiSetNumThreads (maxT n : ℤ) : ℤ :=
  inBetween 1 n maxT

/-- `get_num_threads()`: the stored value when set (non-zero), otherwise
`ParallelSieve::getMaxThreads()`. -/
def apiGetNumThreads (maxT stored : ℤ) : ℤ :=
  if stored ≠ 0 then stored else maxT

/-! ## The small-prime / small-k-tuplet pre-list (soe/PrimeSieve.cpp)

`PrimeSieve::sieve` runs, under the guard `startNumber_ <= 5`, a fixed list of
`doSmallPrime(low, high, type, prime)` calls.  `doSmallPrime` fires when
`startNumber_ <= low && stopNumber_ >= high`; it then counts into
`counts_[type]`, prints the string, or passes `prime[0] - '0'` to the callback,
per the flags.  The C++ string is embedded as its character list. -/

structure SmallEntry where
  low : ℕ
  high : ℕ
  ktype : ℕ
  pstr : List Char
deriving DecidableEq, Repr

/-- The pre-list, in source order. -/
def smallPrimes : List SmallEntry :=
  [ ⟨2, 2, 0, ['2']⟩,
    ⟨3, 3, 0, ['3']⟩,
    ⟨5, 5, 0, ['5']⟩,
    ⟨3, 5, 1, ['(', '3', ',', ' ', '5', ')']⟩,
    ⟨5, 7, 1, ['(', '5', ',', ' ', '7', ')']⟩,
    ⟨5, 11, 2, ['(', '5', ',', ' ', '7', ',', ' ', '1', '1', ')']⟩,
    ⟨5, 13, 3, ['(', '5', ',', ' ', '7', ',', ' ', '1', '1', ',', ' ', '1', '3', ')']⟩,
    ⟨5, 17, 4, ['(', '5', ',', ' ', '7', ',', ' ', '1', '1', ',', ' ', '1', '3', ',', ' ', '1', '7', ')']⟩ ]

/-- An entry fires: the surrounding `startNumber_ <= 5` guard together with
`doSmallPrime`'s own `startNumber_ <= low && stopNumber_ >= high`. -/
def smallTriggered (start stop : ℕ) (e : SmallEntry) : Prop :=
  start ≤ 5 ∧ start ≤ e.low ∧ e.high ≤ stop

instance (start stop : ℕ) (e : SmallEntry) : Decidable (smallTriggered start stop e) := by
  unfold smallTriggered
  infer_instance

/-- Whether the pre-list emits a prime or tuplet with the given bounds and
k-tuplet type for the interval `[start, stop]`. -/
def emitsEntry (start stop low high t : ℕ) : Prop :=
  ∃ e ∈ smallPrimes, e.low = low ∧ e.high = high ∧ e.ktype = t ∧
    smallTriggered start stop e

instance (start stop low high t : ℕ) : Decidable (emitsEntry start stop low high t) := by
  unfold emitsEntry
  infer_instance

/-- The contribution of the pre-list to `counts_[t]` in a counting run. -/
def smallCount (start stop t : ℕ) : ℕ :=
  (smallPrimes.filter fun e => decide (e.ktype = t) && decide (smallTriggered start stop e)).length

/-- The `uint64_t` value `doSmallPrime` hands to the callback:
`prime[0] - '0'` computed in `int` and converted to `uint64_t`. -/
def cbValue (e : SmallEntry) : ℕ :=
  ((e.pstr.headD '0').toNat + (2 ^ 64 - 48)) % 2 ^ 64

/-- The sequence of values `PrimeSieve::generatePrimes` (flags =
`CALLBACK_PRIMES`) passes to the callback from the pre-list, in source order. -/
def callbackValues (start stop : ℕ) : List ℕ :=
  (smallPrimes.filter fun e => decide (smallTriggered start stop e)).map cbValue

/-- The callback value of every k-tuplet entry: `'(' - '0'` as `uint64_t`. -/
def tupletCallbackValue : ℕ := 2 ^ 64 - 8

/-! ## count_primes (src/api.cpp driving soe/PrimeSieve.cpp) -/

/-- Modelled from the spec: `PrimeNumberFinder` (component H, not in the source
tree) delivers the exact count of primes in its assigned interval `[a, b]`
("exact counts and ordered enumeration of all primes in range"). -/
def finderPrimeCount (a b : ℕ) : ℕ :=
  ((Finset.Icc a b).filter Nat.Prime).card

/-- `PrimeSieve::sieve` in `COUNT_PRIMES` mode, as read by `getPrimeCount`:
the pre-list contribution to `counts_[0]` plus, when `stopNumber_ >= 7`, the
`PrimeNumberFinder` count over `[max(startNumber_, 7), stopNumber_]`.
`count_primes` of api.cpp runs this through `ParallelSieve`, whose merged count
is the same by the spec's determinism clause. -/
def countPrimes (start stop : ℕ) : ℕ :=
  smallCount start stop 0 +
    (if 7 ≤ stop then finderPrimeCount (max 7 start) stop else 0)

/-! ## CPU info (include/primesieve/CpuInfo.hpp, unnamed/part_002) and
get_sieve_size(stop) (src/api.cpp) -/

/-- The CPU-cache readings `get_sieve_size(stop)` consumes.  `l1CacheBytes` and
`l2CacheBytes` are `cacheSizes_[1]`, `cacheSizes_[2]` of part_002; modelled from
the spec: `l2PrivateFlag` ("L2 is private") and `l2ThreadsVal` stand for the
`privateL2Cache()` / `l2Threads()` accessors whose definitions are not in the
source tree. -/
structure CpuSieveInfo where
  l1CacheBytes : ℕ
  l2CacheBytes : ℕ
  l2ThreadsVal : ℕ
  l2PrivateFlag : Bool
deriving DecidableEq, Repr

/-- `CpuInfo::hasL1Cache` (part_002): the L1 data-cache size is plausible. -/
def hasL1Cache (c : CpuSieveInfo) : Bool :=
  decide (2 ^ 12 ≤ c.l1CacheBytes) && decide (c.l1CacheBytes ≤ 2 ^ 30)

/-- `CpuInfo::hasL2Cache` (part_002): the L2 cache size is plausible. -/
def hasL2Cache (c : CpuSieveInfo) : Bool :=
  decide (2 ^ 12 ≤ c.l2CacheBytes) && decide (c.l2CacheBytes ≤ 2 ^ 40)

/-- The branch condition of `get_sieve_size(stop)`:
`hasL2Cache() && privateL2Cache() && l2CacheSize > l1CacheSize` (in KiB). -/
def privateL2Larger (c : CpuSieveInfo) : Bool :=
  hasL2Cache c && c.l2PrivateFlag && decide (c.l1CacheBytes / 1024 < c.l2CacheBytes / 1024)

/-- `get_sieve_size(stop)` when no user sieve size is set (api.cpp).  The
predicate `fits` stands for `EratBig::fitsIntoCache(stop, bytes)`, whose
definition is not in the source tree. -/
def defaultSieveSize (c : CpuSieveInfo) (fits : ℕ → ℕ → Bool) (stop : ℕ) : ℕ :=
  let l1k := c.l1CacheBytes / 1024
  let l2k := c.l2CacheBytes / 1024
  if privateL2Larger c then
    let size := floorPow2 (inBetweenN 32 (l2k / inBetweenN 1 c.l2ThreadsVal 4) 4096)
    if fits stop (size * 1024) then size
    else floorPow2 (inBetweenN 32 l2k 4096)
  else
    floorPow2 (inBetweenN 8 (if hasL1Cache c then l1k else 32) 4096)

/-- `get_sieve_size(stop)` including the user-override path: a non-zero stored
`sieve_size` global is returned as is. -/
def apiGetSieveSize (userSize : ℕ) (c : CpuSieveInfo) (fits : ℕ → ℕ → Bool) (stop : ℕ) : ℕ :=
  if userSize ≠ 0 then userSize else defaultSieveSize c fits stop

/-! ## CpuInfo construction (unnamed/part_002)

The constructor zero-initializes every numeric field, runs `init()` inside
`try`, and on `catch (exception& e)` stores `e.what()` in `error_`, leaving the
fields as the probes left them.  `init()` is a sequence of OS probes; each
probe either assigns one numeric field or throws.  The eleven numeric fields
are `cpuCores_`, `cpuThreads_`, `threadsPerCore_`, `cacheSizes_[0..3]`,
`cacheSharing_[0..3]`, indexed here by `Fin 11`. -/

inductive ProbeStep where
  | set : Fin 11 → ℕ → ProbeStep
  | fail : String → ProbeStep
deriving DecidableEq

/-- Run the probe sequence from a given field state; stop at the first throw. -/
def runProbes : (Fin 11 → ℕ) → List ProbeStep → (Fin 11 → ℕ) × Option String
  | f, [] => (f, none)
  | f, ProbeStep.set i v :: rest => runProbes (Function.update f i v) rest
  | f, ProbeStep.fail msg :: _ => (f, some msg)

/-- `CpuInfo::CpuInfo()`: zero-initialized fields, `init()` under try/catch;
`getError()` returns the stored message (empty when no probe threw). -/
def makeCpuInfo (steps : List ProbeStep) : (Fin 11 → ℕ) × String :=
  let r := runProbes (fun _ => 0) steps
  (r.1, r.2.getD "")

/-- The probes of a step list that assign a field. -/
def setIndices (l : List ProbeStep) : List (Fin 11) :=
  l.filterMap fun s =>
    match s with
    | ProbeStep.set i _ => some i
    | ProbeStep.fail _ => none

/-- A step list with no throwing probe. -/
def noFail (l : List ProbeStep) : Bool :=
  l.all fun s =>
    match s with
    | ProbeStep.set _ _ => true
    | ProbeStep.fail _ => false

/-! ## The 16-bit trial-division prime generator (soe/PrimeSieve.cpp)

`sieve()` seeds `primes16Bit = [3]` and, for each odd `n` in
`[5, U32SQRT(generator stop)]`, scans
`for (; primes16Bit[i] <= s && (n % primes16Bit[i]) != 0; i++)` with
`s = U32SQRT(n)`; when the scan lands on an element `> s` it appends `n` if
that element is `<= keep`, `keep = U32SQRT(U32SQRT(generator stop))`.
`U32SQRT` (missing pmath header) is the truncated square root, exact for
64-bit inputs, hence `Nat.sqrt`.  The scan is embedded as a function that
returns the element it stops at, or `none` when it would run past the end of
the vector (the out-of-bounds access the claim is about). -/

/-- Fuel-driven integer square root search (structural recursion on the fuel,
so that the kernel can evaluate it). -/
def isqrtGo (n : ℕ) : ℕ → ℕ → ℕ
  | 0, r => r
  | fuel + 1, r => if (r + 1) * (r + 1) ≤ n then isqrtGo n fuel (r + 1) else r

/-- Modelled from the spec: `U32SQRT` from the missing pmath header is the
truncated square root, `⌊√n⌋` (exact for the 64-bit inputs used here). -/
def isqrtNat (n : ℕ) : ℕ :=
  isqrtGo n n 0

def scan (n s : ℕ) : List ℕ → Option ℕ
  | [] => none
  | p :: rest => if s < p ∨ n % p = 0 then some p else scan n s rest

/-- One outer iteration at candidate `n`: run the scan, then append `n` when
the element found exceeds `√n` and is at most `keep`.  `none` propagates an
out-of-bounds scan. -/
def trialStep (keep : ℕ) (l : List ℕ) (n : ℕ) : Option (List ℕ) :=
  match scan n (isqrtNat n) l with
  | none => none
  | some p => some (if isqrtNat n < p ∧ p ≤ keep then l ++ [n] else l)

/-- The outer loop over the odd candidates. -/
def trialRun (keep : ℕ) : List ℕ → List ℕ → Option (List ℕ)
  | l, [] => some l
  | l, n :: ns =>
    match trialStep keep l n with
    | none => none
    | some l2 => trialRun keep l2 ns

/-- The odd candidates `5, 7, …, ≤ stop`. -/
def oddCandidates (stop : ℕ) : List ℕ :=
  List.range' 5 ((stop - 3) / 2) 2

/-- The whole trial-division loop: from `primes16Bit = [3]`, process every odd
candidate up to `stop`, with `keep = Nat.sqrt stop`. -/
def trialDivision (stop : ℕ) : Option (List ℕ) :=
  trialRun (isqrtNat stop) [3] (oddCandidates stop)

/-- A candidate is appended by the loop exactly when the scan's terminator —
the least odd prime above `√p` — is at most `keep`; this is the abstract form
of that condition. -/
def pushable (keep p : ℕ) : Prop :=
  ∃ q, Nat.Prime q ∧ Odd q ∧ Nat.sqrt p < q ∧ q ≤ keep

/-- The loop invariant: before processing candidate `bound`, the vector is
sorted and holds exactly 3 together with every pushable odd prime below
`bound`. -/
def goodList (keep bound : ℕ) (l : List ℕ) : Prop :=
  List.Sorted (· < ·) l ∧
    ∀ p : ℕ, p ∈ l ↔ (Nat.Prime p ∧ Odd p ∧ p < bound ∧ (p = 3 ∨ pushable keep p))

/-- Executable form of the C9 property for one `stop`, used to settle the
small cases by evaluation. -/
def trialCheck (stop : ℕ) : Bool :=
  match trialDivision stop with
  | none => false
  | some l =>
    decide (List.Sorted (· < ·) l) &&
      l.all (fun p => decide (Nat.Prime p) && decide (p % 2 = 1)) &&
      (List.range (isqrtNat stop + 1)).all
        (fun p => !(decide (Nat.Prime p) && decide (p % 2 = 1)) || decide (p ∈ l))

/-! ## Supporting lemmas -/

theorem inBetween_mem {lo x hi : ℤ} (h : lo ≤ hi) :
    lo ≤ inBetween lo x hi ∧ inBetween lo x hi ≤ hi := by
  unfold inBetween
  split <;> [omega; (split <;> omega)]

theorem floorPow2_inBetween_pow {k x hi : ℕ} (h : 2 ^ k ≤ hi) :
    2 ^ k ≤ floorPow2 (inBetweenN (2 ^ k) x hi) ∧ floorPow2 (inBetweenN (2 ^ k) x hi) ≤ hi := by
  obtain ⟨hlo, hhi⟩ := inBetweenN_mem (x := x) h
  have hk : 2 ^ k ≤ floorPow2 (inBetweenN (2 ^ k) x hi) := le_floorPow2 hlo
  have hpos : 0 < 2 ^ k := Nat.pos_pow_of_pos k (by norm_num)
  exact ⟨hk, le_trans (floorPow2_le (by omega)) hhi⟩

/-! ## C2: the OutOfRange boundary -/

/-- C2 counterexample: at `start = stop = (2^64 − 1) − 10·(2^32 − 1)` the code
throws, although this value is strictly below the claimed threshold
`2^64 − 10·(2^32 − 1)`, so the claim's "no range error strictly below the
bound" is false as stated. -/
theorem range_check_boundary_cx :
    isOkE (rangeCheck sieveLimit sieveLimit) = false ∧
    sieveLimit < 2 ^ 64 - 10 * (2 ^ 32 - 1) := by
  constructor
  · rfl
  · decide

/-- C2 (amended): setting the range and calling `sieve` fails exactly when
`start ≥ (2^64 − 1) − 10·(2^32 − 1)`, or `stop ≥ (2^64 − 1) − 10·(2^32 − 1)`,
or `start > stop`; every pair `start ≤ stop` strictly below that bound passes
all three range checks. -/
theorem range_check_iff_c2 (start stop : ℕ) :
    isOkE (rangeCheck start stop) = false ↔
      (sieveLimit ≤ start ∨ sieveLimit ≤ stop ∨ stop < start) := by
  by_cases h1 : sieveLimit ≤ start <;> by_cases h2 : sieveLimit ≤ stop <;>
    by_cases h3 : stop < start <;>
      simp [rangeCheck, setStartNumber, setStopNumber, isOkE, h1, h2, h3]

/-! ## C3: the small-prime pre-list -/

/-- C3 counterexample: the pair `(2, 3)` contains the small prime 2 and lies
inside `[0, 10]`, yet no pre-list entry emits it (the pre-list has no `(2, 3)`
tuplet), so the claim's "each k-tuplet containing one of them … is emitted iff
least ≥ start and greatest ≤ stop" fails at `start = 0`, `stop = 10`. -/
theorem small_tuplet_cx : ¬ emitsEntry 0 10 2 3 1 := by decide

/-- C3 (amended): the pre-list consists of exactly the entries
2, 3, 5, (3, 5), (5, 7), (5, 7, 11), (5, 7, 11, 13), (5, 7, 11, 13, 17) — no
tuplet containing 2 and none of size 6 or 7 — and each of these entries is
emitted if and only if its least element is ≥ start and its greatest element
is ≤ stop (the surrounding `start ≤ 5` guard is redundant for them). -/
theorem small_prime_pre_list_c3 :
    (∀ start stop : ℕ, ∀ e ∈ smallPrimes,
        (smallTriggered start stop e ↔ start ≤ e.low ∧ e.high ≤ stop)) ∧
    smallPrimes.map (fun e => (e.low, e.high, e.ktype)) =
      [(2, 2, 0), (3, 3, 0), (5, 5, 0), (3, 5, 1), (5, 7, 1),
        (5, 11, 2), (5, 13, 3), (5, 17, 4)] := by
  refine ⟨?_, by rfl⟩
  intro start stop e he
  have hlow : e.low ≤ 5 := by fin_cases he <;> decide
  constructor
  · rintro ⟨_, hl, hh⟩
    exact ⟨hl, hh⟩
  · rintro ⟨hl, hh⟩
    exact ⟨le_trans hl hlow, hl, hh⟩

/-! ## C4: set_sieve_size / get_sieve_size round trip -/

/-- C4: after `set_sieve_size(kib)`, `get_sieve_size()` returns the stored
value, which is the largest power of two not exceeding the clamp of `kib` to
`[8, 4096]`; it is a power of two in `[8, 4096]`, and re-applying
`set_sieve_size` to it leaves it unchanged. -/
theorem set_get_sieve_size_c4 (k : ℤ) (c : CpuSieveInfo) (fits : ℕ → ℕ → Bool) (stop : ℕ) :
    apiGetSieveSize (apiSetSieveSize k) c fits stop = apiSetSieveSize k ∧
    isPowerOf2 (apiSetSieveSize k) = true ∧
    8 ≤ apiSetSieveSize k ∧ apiSetSieveSize k ≤ 4096 ∧
    ((apiSetSieveSize k : ℤ) ≤ inBetween 8 k 4096 ∧
      ∀ m : ℕ, isPowerOf2 m = true → (m : ℤ) ≤ inBetween 8 k 4096 → m ≤ apiSetSieveSize k) ∧
    apiSetSieveSize (apiSetSieveSize k : ℤ) = apiSetSieveSize k := by
  obtain ⟨hlo, hhi⟩ := @inBetween_mem 8 k 4096 (by norm_num)
  have htn : ((inBetween 8 k 4096).toNat : ℤ) = inBetween 8 k 4096 :=
    Int.toNat_of_nonneg (by omega)
  have hlo' : (8 : ℕ) ≤ (inBetween 8 k 4096).toNat := by omega
  have hhi' : (inBetween 8 k 4096).toNat ≤ 4096 := by omega
  have h8 : 8 ≤ apiSetSieveSize k := by
    have := le_floorPow2 (n := (inBetween 8 k 4096).toNat) (k := 3) (by simpa using hlo')
    simpa [apiSetSieveSize] using this
  have hle : apiSetSieveSize k ≤ (inBetween 8 k 4096).toNat := by
    have := floorPow2_le (n := (inBetween 8 k 4096).toNat) (by omega)
    simpa [apiSetSieveSize] using this
  have h4096 : apiSetSieveSize k ≤ 4096 := le_trans hle hhi'
  refine ⟨?_, ?_, h8, h4096, ⟨?_, ?_⟩, ?_⟩
  · unfold apiGetSieveSize
    rw [if_pos (by omega)]
  · unfold apiSetSieveSize
    exact isPowerOf2_floorPow2 _
  · omega
  · intro m hm hmle
    obtain ⟨j, rfl⟩ := (isPowerOf2_iff m).mp hm
    have : (2 : ℕ) ^ j ≤ (inBetween 8 k 4096).toNat := by omega
    have := le_floorPow2 this
    simpa [apiSetSieveSize] using this
  · have hpow : apiSetSieveSize k = 2 ^ log2Nat (inBetween 8 k 4096).toNat := rfl
    have hib : inBetween 8 (apiSetSieveSize k : ℤ) 4096 = (apiSetSieveSize k : ℤ) := by
      unfold inBetween
      rw [if_neg (by omega), if_neg (by omega)]
    calc apiSetSieveSize (apiSetSieveSize k : ℤ)
        = floorPow2 (inBetween 8 (apiSetSieveSize k : ℤ) 4096).toNat := rfl
      _ = floorPow2 ((apiSetSieveSize k : ℤ)).toNat := by rw [hib]
      _ = floorPow2 (apiSetSieveSize k) := by simp
      _ = apiSetSieveSize k := by rw [hpow, floorPow2_pow]

/-! ## C5: InvalidSieveSize -/

/-- C5 counterexample: the requested size 7 KiB lies inside `[1, 8192]`, yet
`PrimeSieve::setSieveSize(7)` throws (power-of-two check) instead of
auto-rounding, so "inside that range … never produces an error" is false. -/
theorem ps_set_sieve_size_cx :
    (1 : ℕ) ≤ 7 ∧ (7 : ℕ) ≤ 8192 ∧ isOkE (psSetSieveSize 7) = false := by decide

/-- C5 (amended): `PrimeSieve::setSieveSize` succeeds exactly when the
requested size is inside `[1, 8192]` KiB and is a power of two; a
non-power-of-two size is rejected there, and the auto-rounding the spec
describes happens only in the API-level `set_sieve_size` (see C4), which never
errors. -/
theorem ps_set_sieve_size_iff_c5 (k : ℕ) :
    isOkE (psSetSieveSize k) = true ↔ (1 ≤ k ∧ k ≤ 8192 ∧ isPowerOf2 k = true) := by
  by_cases h1 : k < 1 ∨ 8192 < k
  · simp only [psSetSieveSize, if_pos h1, isOkE]
    constructor
    · intro h
      exact absurd h (by simp)
    · intro h
      omega
  · by_cases h2 : isPowerOf2 k = true
    · have hnn : ¬ (¬ isPowerOf2 k = true) := by simp [h2]
      simp only [psSetSieveSize, if_neg h1, if_neg hnn, isOkE]
      exact ⟨fun _ => ⟨by omega, by omega, h2⟩, fun _ => trivial⟩
    · simp only [psSetSieveSize, if_neg h1, isOkE]
      rw [if_pos (by simpa using h2)]
      constructor
      · intro h
        exact absurd h (by simp)
      · intro h
        exact absurd h.2.2 h2

/-! ## C6: set_num_threads / get_num_threads -/

/-- C6: after `set_num_threads(n)`, `get_num_threads()` returns `n` clamped to
`[1, maxT]` (`maxT` the hardware thread count, ≥ 1); in particular every
`n ≤ 0` is rounded to 1, with no error path. -/
theorem set_get_num_threads_c6 (maxT n : ℤ) (h : 1 ≤ maxT) :
    apiGetNumThreads maxT (apiSetNumThreads maxT n) = inBetween 1 n maxT ∧
    inBetween 1 n maxT = max 1 (min n maxT) ∧
    (n ≤ 0 → apiGetNumThreads maxT (apiSetNumThreads maxT n) = 1) := by
  obtain ⟨h1, _⟩ := @inBetween_mem 1 n maxT h
  have hget : apiGetNumThreads maxT (apiSetNumThreads maxT n) = inBetween 1 n maxT := by
    unfold apiGetNumThreads apiSetNumThreads
    rw [if_pos (by omega)]
  refine ⟨hget, ?_, ?_⟩
  · unfold inBetween
    split <;> [omega; (split <;> omega)]
  · intro hn
    rw [hget]
    unfold inBetween
    rw [if_pos (by omega)]

/-- C6 witness: `set_num_threads(-3)` on a 4-thread machine yields 1. -/
theorem set_get_num_threads_c6_witness :
    apiGetNumThreads 4 (apiSetNumThreads 4 (-3)) = 1 :=
  (set_get_num_threads_c6 4 (-3) (by norm_num)).2.2 (by norm_num)

/-! ## C7: the default sieve size -/

/-- C7: with no user override, `get_sieve_size(stop)` returns a power of two
in `[8, 4096]` KiB for every CPU-info reading: an L2-derived size when a
private L2 cache larger than L1 is reported (one of the two L2 formulas,
depending on `EratBig::fitsIntoCache`), otherwise the L1 formula with 32 KiB
substituted when no valid L1 cache was detected. -/
theorem default_sieve_size_c7 (c : CpuSieveInfo) (fits : ℕ → ℕ → Bool) (stop : ℕ) :
    (isPowerOf2 (defaultSieveSize c fits stop) = true ∧
      8 ≤ defaultSieveSize c fits stop ∧ defaultSieveSize c fits stop ≤ 4096) ∧
    (privateL2Larger c = false →
      defaultSieveSize c fits stop =
        floorPow2 (inBetweenN 8 (if hasL1Cache c then c.l1CacheBytes / 1024 else 32) 4096)) ∧
    (privateL2Larger c = true →
      defaultSieveSize c fits stop =
          floorPow2
            (inBetweenN 32 (c.l2CacheBytes / 1024 / inBetweenN 1 c.l2ThreadsVal 4) 4096) ∨
      defaultSieveSize c fits stop = floorPow2 (inBetweenN 32 (c.l2CacheBytes / 1024) 4096)) := by
  have h32 : ∀ x : ℕ, 32 ≤ floorPow2 (inBetweenN 32 x 4096) ∧
      floorPow2 (inBetweenN 32 x 4096) ≤ 4096 := by
    intro x
    have := @floorPow2_inBetween_pow 5 x 4096 (by norm_num)
    simpa using this
  have h8 : ∀ x : ℕ, 8 ≤ floorPow2 (inBetweenN 8 x 4096) ∧
      floorPow2 (inBetweenN 8 x 4096) ≤ 4096 := by
    intro x
    have := @floorPow2_inBetween_pow 3 x 4096 (by norm_num)
    simpa using this
  unfold defaultSieveSize
  by_cases hp : privateL2Larger c
  · by_cases hf : fits stop
      (floorPow2 (inBetweenN 32 (c.l2CacheBytes / 1024 / inBetweenN 1 c.l2ThreadsVal 4) 4096)
        * 1024) = true
    · refine ⟨?_, by simp [hp], fun _ => Or.inl (by simp [hp, hf])⟩
      simp only [hp, if_true, hf]
      refine ⟨isPowerOf2_floorPow2 _, ?_, (h32 _).2⟩
      exact le_trans (by norm_num) (h32 _).1
    · rw [Bool.not_eq_true] at hf
      refine ⟨?_, by simp [hp], fun _ => Or.inr (by simp [hp, hf])⟩
      simp only [hp, if_true, hf, Bool.false_eq_true]
      refine ⟨isPowerOf2_floorPow2 _, ?_, (h32 _).2⟩
      exact le_trans (by norm_num) (h32 _).1
  · refine ⟨?_, fun _ => by simp [hp], by simp [hp]⟩
    simp only [hp, if_false]
    exact ⟨isPowerOf2_floorPow2 _, (h8 _).1, (h8 _).2⟩

/-! ## C8: CpuInfo construction never propagates -/

theorem runProbes_append_fail (msg : String) (post : List ProbeStep) :
    ∀ (pre : List ProbeStep) (f : Fin 11 → ℕ), noFail pre = true →
      (runProbes f (pre ++ ProbeStep.fail msg :: post)).2 = some msg ∧
      ∀ i : Fin 11, i ∉ setIndices pre →
        (runProbes f (pre ++ ProbeStep.fail msg :: post)).1 i = f i := by
  intro pre
  induction pre with
  | nil =>
    intro f _
    exact ⟨rfl, fun i _ => rfl⟩
  | cons s rest ih =>
    intro f hnf
    cases s with
    | set j v =>
      have hnf' : noFail rest = true := by
        simpa [noFail] using hnf
      obtain ⟨h1, h2⟩ := ih (Function.update f j v) hnf'
      refine ⟨h1, ?_⟩
      intro i hi
      have hij : i ≠ j := by
        intro hij
        exact hi (by simp [setIndices, hij])
      have hmem : i ∉ setIndices rest := by
        intro hmem
        exact hi (by simp [setIndices, List.filterMap_cons] at hmem ⊢; exact Or.inr hmem)
      rw [show runProbes f ((ProbeStep.set j v :: rest) ++ ProbeStep.fail msg :: post)
          = runProbes (Function.update f j v) (rest ++ ProbeStep.fail msg :: post) from rfl]
      rw [h2 i hmem]
      exact Function.update_noteq hij v f
    | fail m =>
      simp [noFail] at hnf

/-- C8: running the constructor over any probe sequence interrupted by a
throw, the exception is absorbed: `getError()` returns the thrown message and
every numeric field not assigned by a completed probe still holds its
zero-initialized value. -/
theorem cpu_info_constructor_c8 (pre post : List ProbeStep) (msg : String)
    (hpre : noFail pre = true) :
    (makeCpuInfo (pre ++ ProbeStep.fail msg :: post)).2 = msg ∧
    ∀ i : Fin 11, i ∉ setIndices pre →
      (makeCpuInfo (pre ++ ProbeStep.fail msg :: post)).1 i = 0 := by
  obtain ⟨h1, h2⟩ := runProbes_append_fail msg post pre (fun _ => 0) hpre
  constructor
  · show (runProbes (fun _ => 0) (pre ++ ProbeStep.fail msg :: post)).2.getD "" = msg
    rw [h1]
    rfl
  · intro i hi
    show (runProbes (fun _ => 0) (pre ++ ProbeStep.fail msg :: post)).1 i = 0
    exact h2 i hi

/-- C8 witness: one completed probe, then a throw, then an unreached probe. -/
theorem cpu_info_constructor_c8_witness :
    (makeCpuInfo [ProbeStep.set 0 7, ProbeStep.fail "sysfs probe failed",
        ProbeStep.set 1 9]).2 = "sysfs probe failed" ∧
    (makeCpuInfo [ProbeStep.set 0 7, ProbeStep.fail "sysfs probe failed",
        ProbeStep.set 1 9]).1 3 = 0 := by
  have h := cpu_info_constructor_c8 [ProbeStep.set 0 7] [ProbeStep.set 1 9]
    "sysfs probe failed" (by decide)
  exact ⟨h.1, h.2 3 (by decide)⟩

/-! ## C10: generatePrimes callback values from the pre-list -/

/-- C10 counterexample: at `start = 3 ≤ 3`, `stop = 5 ≥ 5`, the callback is
never invoked with the value 2 — entry "2" requires `start ≤ 2` — so the claim
"the callback is invoked … for the primes 2, 3, 5" fails for `start = 3`. -/
theorem generate_primes_callback_cx :
    (3 : ℕ) ≤ 3 ∧ (5 : ℕ) ≤ 5 ∧ (2 : ℕ) ∉ callbackValues 3 5 := by decide

/-- C10 (amended): for `start ≤ 2` and `stop ≥ 5`, `generatePrimes` invokes
the callback for the primes 2, 3, 5 and once for each pre-list tuplet entry
whose span lies within `[start, stop]`; the value passed for a tuplet entry is
its string's first character minus `'0'` as `uint64_t`, i.e.
`2^64 − 8` (from `'('`), not a prime. -/
theorem generate_primes_callback_c10 (start stop : ℕ) (h1 : start ≤ 2) (h2 : 5 ≤ stop) :
    callbackValues start stop =
      [2, 3, 5, tupletCallbackValue] ++
        (if 7 ≤ stop then [tupletCallbackValue] else []) ++
        (if 11 ≤ stop then [tupletCallbackValue] else []) ++
        (if 13 ≤ stop then [tupletCallbackValue] else []) ++
        (if 17 ≤ stop then [tupletCallbackValue] else []) := by
  have ha5 : start ≤ 5 := by omega
  have ha3 : start ≤ 3 := by omega
  have hb2 : 2 ≤ stop := by omega
  have hb3 : 3 ≤ stop := by omega
  have hv2 : cbValue ⟨2, 2, 0, ['2']⟩ = 2 := by decide
  have hv3 : cbValue ⟨3, 3, 0, ['3']⟩ = 3 := by decide
  have hv5 : cbValue ⟨5, 5, 0, ['5']⟩ = 5 := by decide
  have hw1 : cbValue ⟨3, 5, 1, ['(', '3', ',', ' ', '5', ')']⟩ = tupletCallbackValue := by
    decide
  have hw2 : cbValue ⟨5, 7, 1, ['(', '5', ',', ' ', '7', ')']⟩ = tupletCallbackValue := by
    decide
  have hw3 : cbValue ⟨5, 11, 2, ['(', '5', ',', ' ', '7', ',', ' ', '1', '1', ')']⟩ =
      tupletCallbackValue := by decide
  have hw4 : cbValue
      ⟨5, 13, 3, ['(', '5', ',', ' ', '7', ',', ' ', '1', '1', ',', ' ', '1', '3', ')']⟩ =
      tupletCallbackValue := by decide
  have hw5 : cbValue
      ⟨5, 17, 4, ['(', '5', ',', ' ', '7', ',', ' ', '1', '1', ',', ' ', '1', '3', ',',
        ' ', '1', '7', ')']⟩ = tupletCallbackValue := by decide
  by_cases c7 : 7 ≤ stop <;> by_cases c11 : 11 ≤ stop <;> by_cases c13 : 13 ≤ stop <;>
    by_cases c17 : 17 ≤ stop <;>
      first
        | omega
        | simp [callbackValues, smallPrimes, smallTriggered, ha5, ha3, h1, h2, hb2, hb3,
            c7, c11, c13, c17, hv2, hv3, hv5, hw1, hw2, hw3, hw4, hw5]

/-- C10 witness: `start = 0`, `stop = 7`. -/
theorem generate_primes_callback_c10_witness :
    callbackValues 0 7 = [2, 3, 5, tupletCallbackValue, tupletCallbackValue] := by
  have h := generate_primes_callback_c10 0 7 (by norm_num) (by norm_num)
  rw [h]
  norm_num

/-! ## C1: count_primes is exact -/

theorem primes_lt_seven (p : ℕ) (hp : p.Prime) (h : p < 7) : p = 2 ∨ p = 3 ∨ p = 5 := by
  interval_cases p <;> revert hp <;> decide

theorem smallCount_eq (start stop : ℕ) :
    smallCount start stop 0 =
      (if start ≤ 2 ∧ 2 ≤ stop then 1 else 0) + (if start ≤ 3 ∧ 3 ≤ stop then 1 else 0) +
        (if start ≤ 5 ∧ 5 ≤ stop then 1 else 0) := by
  by_cases a2 : start ≤ 2 <;> by_cases a3 : start ≤ 3 <;> by_cases a5 : start ≤ 5 <;>
    by_cases b2 : 2 ≤ stop <;> by_cases b3 : 3 ≤ stop <;> by_cases b5 : 5 ≤ stop <;>
      first
        | omega
        | simp [smallCount, smallPrimes, smallTriggered, a2, a3, a5, b2, b3, b5]

theorem card_small_primes_interval (start stop : ℕ) :
    ((Finset.Icc start stop).filter fun p => Nat.Prime p ∧ p < 7).card =
      (if start ≤ 2 ∧ 2 ≤ stop then 1 else 0) + (if start ≤ 3 ∧ 3 ≤ stop then 1 else 0) +
        (if start ≤ 5 ∧ 5 ≤ stop then 1 else 0) := by
  have hset : ((Finset.Icc start stop).filter fun p => Nat.Prime p ∧ p < 7) =
      ({2, 3, 5} : Finset ℕ).filter fun p => start ≤ p ∧ p ≤ stop := by
    ext p
    simp only [Finset.mem_filter, Finset.mem_Icc, Finset.mem_insert, Finset.mem_singleton]
    constructor
    · rintro ⟨⟨hs, he⟩, hp, h7⟩
      exact ⟨primes_lt_seven p hp h7, hs, he⟩
    · rintro ⟨hm, hs, he⟩
      refine ⟨⟨hs, he⟩, ?_, ?_⟩
      · rcases hm with rfl | rfl | rfl <;> norm_num
      · rcases hm with rfl | rfl | rfl <;> norm_num
  rw [hset]
  rw [show ({2, 3, 5} : Finset ℕ) = insert 2 (insert 3 {5}) from rfl]
  rw [Finset.filter_insert, Finset.filter_insert, Finset.filter_singleton]
  by_cases c2 : start ≤ 2 ∧ 2 ≤ stop <;> by_cases c3 : start ≤ 3 ∧ 3 ≤ stop <;>
    by_cases c5 : start ≤ 5 ∧ 5 ≤ stop <;>
      first
        | omega
        | simp [c2, c3, c5]

/-- C1: for `start ≤ stop` within the supported range, `count_primes` returns
the exact number of primes `p` with `start ≤ p ≤ stop`. -/
theorem count_primes_exact_c1 (start stop : ℕ) (h1 : start ≤ stop)
    (h2 : stop ≤ sieveLimit - 1) :
    countPrimes start stop = ((Finset.Icc start stop).filter Nat.Prime).card := by
  rcases Nat.lt_or_ge stop 7 with h7 | h7
  · interval_cases stop <;> interval_cases start <;> decide
  · have hpart := Finset.filter_card_add_filter_neg_card_eq_card
      (s := (Finset.Icc start stop).filter Nat.Prime) (p := fun p => p < 7)
    rw [Finset.filter_filter, Finset.filter_filter] at hpart
    have hneg : ((Finset.Icc start stop).filter fun a => Nat.Prime a ∧ ¬ a < 7) =
        (Finset.Icc (max 7 start) stop).filter Nat.Prime := by
      ext p
      simp only [Finset.mem_filter, Finset.mem_Icc, max_le_iff]
      constructor
      · rintro ⟨⟨hs, he⟩, hp, hge⟩
        exact ⟨⟨by omega, he⟩, hp⟩
      · rintro ⟨⟨⟨h7p, hsp⟩, he⟩, hp⟩
        exact ⟨⟨hsp, he⟩, hp, by omega⟩
    rw [hneg] at hpart
    unfold countPrimes finderPrimeCount
    rw [if_pos h7, smallCount_eq]
    have hsmall := card_small_primes_interval start stop
    omega

/-- C1 witness: `count_primes(0, 10)` matches the four primes 2, 3, 5, 7. -/
theorem count_primes_exact_c1_witness :
    countPrimes 0 10 = ((Finset.Icc 0 10).filter Nat.Prime).card :=
  count_primes_exact_c1 0 10 (by norm_num) (by decide)

/-! ## C9: the trial-division loop never indexes out of bounds -/

theorem isqrtGo_eq {n : ℕ} :
    ∀ (fuel r : ℕ), r * r ≤ n → n < (r + fuel + 1) * (r + fuel + 1) →
      isqrtGo n fuel r = Nat.sqrt n := by
  intro fuel
  induction fuel with
  | zero =>
    intro r h1 h2
    simp only [isqrtGo]
    rw [Nat.eq_sqrt]
    constructor
    · exact h1
    · simpa using h2
  | succ fuel ih =>
    intro r h1 h2
    by_cases hc : (r + 1) * (r + 1) ≤ n
    · rw [show isqrtGo n (fuel + 1) r = isqrtGo n fuel (r + 1) by simp [isqrtGo, hc]]
      apply ih (r + 1) hc
      have : r + 1 + fuel = r + (fuel + 1) := by ring
      rw [this]
      exact h2
    · rw [show isqrtGo n (fuel + 1) r = r by simp [isqrtGo, hc]]
      rw [Nat.eq_sqrt]
      push_neg at hc
      exact ⟨h1, hc⟩

theorem isqrtNat_eq (n : ℕ) : isqrtNat n = Nat.sqrt n := by
  apply isqrtGo_eq n 0 (by simp)
  nlinarith

theorem two_sqrt_lt {n : ℕ} (h : 5 ≤ n) : 2 * Nat.sqrt n < n := by
  have hs := Nat.sqrt_le n
  have hlt := Nat.lt_succ_sqrt n
  rcases Nat.lt_or_ge (Nat.sqrt n) 3 with hs3 | hs3
  · omega
  · have : 3 * Nat.sqrt n ≤ Nat.sqrt n * Nat.sqrt n := Nat.mul_le_mul_right _ hs3
    omega

theorem exists_odd_prime_between {s : ℕ} (h : 2 ≤ s) :
    ∃ q, Nat.Prime q ∧ Odd q ∧ s < q ∧ q ≤ 2 * s := by
  obtain ⟨p, hp, h1, h2⟩ := Nat.exists_prime_lt_and_le_two_mul s (by omega)
  exact ⟨p, hp, hp.odd_of_ne_two (by omega), h1, h2⟩

theorem two_sqrt_double_le {keep : ℕ} (h : 8 ≤ keep) :
    2 * Nat.sqrt (2 * keep) ≤ keep := by
  have h1 := Nat.sqrt_le (2 * keep)
  by_contra hc
  push_neg at hc
  nlinarith

theorem pushable_of_le_keep {keep p : ℕ} (hp : p.Prime) (hodd : Odd p) (h : p ≤ keep) :
    pushable keep p :=
  ⟨p, hp, hodd, Nat.sqrt_lt_self hp.one_lt, h⟩

theorem scan_found {n s : ℕ} {l : List ℕ} (hs : List.Sorted (· < ·) l)
    (hex : ∃ x ∈ l, s < x ∨ n % x = 0) :
    ∃ p, scan n s l = some p ∧ p ∈ l ∧ (s < p ∨ n % p = 0) ∧
      ∀ x ∈ l, x < p → ¬(s < x ∨ n % x = 0) := by
  induction l with
  | nil => simp at hex
  | cons a rest ih =>
    rw [List.sorted_cons] at hs
    by_cases ha : s < a ∨ n % a = 0
    · refine ⟨a, by simp [scan, ha], List.mem_cons_self a rest, ha, ?_⟩
      intro x hx hlt
      exfalso
      rcases List.mem_cons.mp hx with rfl | hx'
      · omega
      · have := hs.1 x hx'
        omega
    · have hex' : ∃ x ∈ rest, s < x ∨ n % x = 0 := by
        rcases hex with ⟨x, hx, hhit⟩
        rcases List.mem_cons.mp hx with rfl | hx'
        · exact absurd hhit ha
        · exact ⟨x, hx', hhit⟩
      obtain ⟨p, h1, h2, h3, h4⟩ := ih hs.2 hex'
      refine ⟨p, by simp [scan, ha, h1], List.mem_cons_of_mem a h2, h3, ?_⟩
      intro x hx hlt
      rcases List.mem_cons.mp hx with rfl | hx'
      · exact ha
      · exact h4 x hx' hlt

theorem goodList_init {keep : ℕ} : goodList keep 5 [3] := by
  constructor
  · simp [List.Sorted]
  · intro p
    simp only [List.mem_singleton]
    constructor
    · rintro rfl
      exact ⟨by norm_num, by decide, by norm_num, Or.inl rfl⟩
    · rintro ⟨hp, hpo, hlt, _⟩
      have h2 := hp.two_le
      interval_cases p
      · exact absurd hpo (by decide)
      · rfl
      · exact absurd hp (by decide)

theorem trialStep_good {keep n : ℕ} {l : List ℕ} (h8 : 8 ≤ keep) (hn5 : 5 ≤ n)
    (hodd : n % 2 = 1) (hsk : Nat.sqrt n ≤ keep) (hg : goodList keep n l) :
    ∃ l2, trialStep keep l n = some l2 ∧ goodList keep (n + 2) l2 := by
  obtain ⟨hsort, hmem⟩ := hg
  have htse : trialStep keep l n =
      match scan n (Nat.sqrt n) l with
      | none => none
      | some p => some (if Nat.sqrt n < p ∧ p ≤ keep then l ++ [n] else l) := by
    unfold trialStep
    rw [isqrtNat_eq]
  by_cases hprime : n.Prime
  · -- prime candidate: no element divides it, and the scan finds an element > √n
    have hnodvd : ∀ x ∈ l, ¬ n % x = 0 := by
      intro x hx hdvd
      obtain ⟨hxp, _, hxn, _⟩ := (hmem x).mp hx
      have hx2 := hxp.two_le
      rcases hprime.eq_one_or_self_of_dvd x (Nat.dvd_of_mod_eq_zero hdvd) with h | h <;> omega
    have hs2 : 2 ≤ Nat.sqrt n := by
      rw [Nat.le_sqrt]
      omega
    obtain ⟨q, hqp, hqodd, hq1, hq2⟩ := exists_odd_prime_between hs2
    have h2slt : 2 * Nat.sqrt n < n := two_sqrt_lt hn5
    have hqn : q < n := by omega
    have hqmem : q ∈ l := by
      refine (hmem q).mpr ⟨hqp, hqodd, hqn, Or.inr ?_⟩
      by_cases hqk : q ≤ keep
      · exact pushable_of_le_keep hqp hqodd hqk
      · push_neg at hqk
        have hm2 : 2 ≤ Nat.sqrt q := by
          rw [Nat.le_sqrt]
          omega
        obtain ⟨r, hrp, hrodd, hr1, hr2⟩ := exists_odd_prime_between hm2
        refine ⟨r, hrp, hrodd, hr1, ?_⟩
        have hq2k : q ≤ 2 * keep := by omega
        have hmono := Nat.sqrt_le_sqrt hq2k
        have hdiv := two_sqrt_double_le h8
        omega
    obtain ⟨p, hscan, hpl, hphit, hpmin⟩ := scan_found hsort ⟨q, hqmem, Or.inl hq1⟩
    have hps : Nat.sqrt n < p := by
      rcases hphit with h | h
      · exact h
      · exact absurd h (hnodvd p hpl)
    have hpq : p ≤ q := by
      by_contra hc
      push_neg at hc
      exact hpmin q hqmem hc (Or.inl hq1)
    obtain ⟨hpp, hpo, hpn, _⟩ := (hmem p).mp hpl
    refine ⟨if Nat.sqrt n < p ∧ p ≤ keep then l ++ [n] else l, by rw [htse, hscan], ?_⟩
    by_cases hpk : p ≤ keep
    · rw [if_pos ⟨hps, hpk⟩]
      have hnmem : ∀ a ∈ l, a < n := fun a ha => ((hmem a).mp ha).2.2.1
      constructor
      · exact List.pairwise_append.mpr ⟨hsort, List.pairwise_singleton _ _,
          fun a ha b hb => by rw [List.mem_singleton] at hb; subst hb; exact hnmem a ha⟩
      · intro p'
        rw [List.mem_append, List.mem_singleton, hmem p']
        constructor
        · rintro (⟨a, b, c, d⟩ | rfl)
          · exact ⟨a, b, by omega, d⟩
          · exact ⟨hprime, Nat.odd_iff.mpr hodd, by omega,
              Or.inr ⟨p, hpp, hpo, hps, hpk⟩⟩
        · rintro ⟨a, b, c, d⟩
          rcases Nat.lt_or_ge p' n with hlt | hge
          · exact Or.inl ⟨a, b, hlt, d⟩
          · have : p' = n ∨ p' = n + 1 := by omega
            rcases this with rfl | rfl
            · exact Or.inr rfl
            · rw [Nat.odd_iff] at b
              omega
    · rw [if_neg fun h => hpk h.2]
      have hnopush : ¬ pushable keep n := by
        rintro ⟨q', hq'p, hq'odd, hq'1, hq'2⟩
        have hq'n : q' < n := by omega
        have hq'mem : q' ∈ l :=
          (hmem q').mpr ⟨hq'p, hq'odd, hq'n, Or.inr (pushable_of_le_keep hq'p hq'odd hq'2)⟩
        by_cases hql : q' < p
        · exact hpmin q' hq'mem hql (Or.inl hq'1)
        · omega
      refine ⟨hsort, fun p' => ?_⟩
      rw [hmem p']
      constructor
      · rintro ⟨a, b, c, d⟩
        exact ⟨a, b, by omega, d⟩
      · rintro ⟨a, b, c, d⟩
        refine ⟨a, b, ?_, d⟩
        rcases Nat.lt_or_ge p' n with hlt | hge
        · exact hlt
        · have : p' = n ∨ p' = n + 1 := by omega
          rcases this with rfl | rfl
          · rcases d with h3 | hpush
            · omega
            · exact absurd hpush hnopush
          · rw [Nat.odd_iff] at b
            omega
  · -- composite candidate: the scan stops at the least prime factor
    have hn1 : n ≠ 1 := by omega
    have hqp : (n.minFac).Prime := Nat.minFac_prime hn1
    have hqdvd : n.minFac ∣ n := Nat.minFac_dvd n
    have hqsq : n.minFac * n.minFac ≤ n := by
      have := Nat.minFac_sq_le_self (by omega : 0 < n) hprime
      simpa [Nat.pow_two] using this
    have hqs : n.minFac ≤ Nat.sqrt n := by
      rw [Nat.le_sqrt]
      exact hqsq
    have hqodd : Odd n.minFac := by
      refine hqp.odd_of_ne_two ?_
      intro h2
      obtain ⟨k, hk⟩ := hqdvd
      rw [h2] at hk
      omega
    have hqn : n.minFac < n := by
      have := Nat.sqrt_lt_self (show 1 < n by omega)
      omega
    have hqk : n.minFac ≤ keep := le_trans hqs hsk
    have hqmem : n.minFac ∈ l :=
      (hmem n.minFac).mpr ⟨hqp, hqodd, hqn, Or.inr (pushable_of_le_keep hqp hqodd hqk)⟩
    have hqmod : n % n.minFac = 0 := Nat.mod_eq_zero_of_dvd hqdvd
    obtain ⟨p, hscan, hpl, hphit, hpmin⟩ := scan_found hsort ⟨n.minFac, hqmem, Or.inr hqmod⟩
    have hpq : p ≤ n.minFac := by
      by_contra hc
      push_neg at hc
      exact hpmin n.minFac hqmem hc (Or.inr hqmod)
    have hps : ¬ (Nat.sqrt n < p ∧ p ≤ keep) := by
      rintro ⟨hsp, _⟩
      omega
    refine ⟨l, by rw [htse, hscan]; exact congrArg some (if_neg hps), hsort, fun p' => ?_⟩
    rw [hmem p']
    constructor
    · rintro ⟨a, b, c, d⟩
      exact ⟨a, b, by omega, d⟩
    · rintro ⟨a, b, c, d⟩
      refine ⟨a, b, ?_, d⟩
      rcases Nat.lt_or_ge p' n with hlt | hge
      · exact hlt
      · have : p' = n ∨ p' = n + 1 := by omega
        rcases this with rfl | rfl
        · exact absurd a hprime
        · rw [Nat.odd_iff] at b
          omega

theorem trialRun_good {keep : ℕ} (h8 : 8 ≤ keep) :
    ∀ (k n : ℕ) (l : List ℕ), 5 ≤ n → n % 2 = 1 →
      (∀ i, i < k → Nat.sqrt (n + 2 * i) ≤ keep) → goodList keep n l →
      ∃ l2, trialRun keep l (List.range' n k 2) = some l2 ∧ goodList keep (n + 2 * k) l2 := by
  intro k
  induction k with
  | zero =>
    intro n l h5 hodd hbound hg
    exact ⟨l, rfl, by simpa using hg⟩
  | succ k ih =>
    intro n l h5 hodd hbound hg
    have hb0 : Nat.sqrt n ≤ keep := by
      have := hbound 0 (by omega)
      simpa using this
    obtain ⟨l2, hstep, hg2⟩ := trialStep_good h8 h5 hodd hb0 hg
    obtain ⟨l3, hrun, hg3⟩ := ih (n + 2) l2 (by omega) (by omega)
      (fun i hi => by
        have := hbound (i + 1) (by omega)
        have harith : n + 2 * (i + 1) = n + 2 + 2 * i := by ring
        rwa [harith] at this) hg2
    refine ⟨l3, ?_, ?_⟩
    · rw [List.range'_succ]
      show (match trialStep keep l n with
        | none => none
        | some l2 => trialRun keep l2 (List.range' (n + 2) k 2)) = some l3
      rw [hstep]
      exact hrun
    · have harith : n + 2 * (k + 1) = n + 2 + 2 * k := by ring
      rw [harith]
      exact hg3

theorem trial_division_large {stop : ℕ} (h : 64 ≤ stop) :
    ∃ l, trialDivision stop = some l ∧ List.Sorted (· < ·) l ∧
      (∀ p ∈ l, Nat.Prime p ∧ Odd p) ∧
      ∀ p : ℕ, Nat.Prime p → Odd p → p ≤ Nat.sqrt stop → p ∈ l := by
  have hkeep : 8 ≤ Nat.sqrt stop := by
    rw [Nat.le_sqrt]
    omega
  have hbound : ∀ i, i < (stop - 3) / 2 → Nat.sqrt (5 + 2 * i) ≤ Nat.sqrt stop := by
    intro i hi
    exact Nat.sqrt_le_sqrt (by omega)
  obtain ⟨l2, hrun, hsort2, hmem2⟩ :=
    trialRun_good hkeep ((stop - 3) / 2) 5 [3] (by norm_num) (by norm_num) hbound goodList_init
  refine ⟨l2, ?_, hsort2, ?_, ?_⟩
  · unfold trialDivision oddCandidates
    rw [isqrtNat_eq]
    exact hrun
  · intro p hp
    obtain ⟨h1, h2, _, _⟩ := (hmem2 p).mp hp
    exact ⟨h1, h2⟩
  · intro p hp hpo hple
    refine (hmem2 p).mpr ⟨hp, hpo, ?_, Or.inr (pushable_of_le_keep hp hpo hple)⟩
    have hsq : Nat.sqrt stop * Nat.sqrt stop ≤ stop := Nat.sqrt_le stop
    have h8m : 8 * Nat.sqrt stop ≤ Nat.sqrt stop * Nat.sqrt stop :=
      Nat.mul_le_mul_right _ hkeep
    omega

theorem of_trialCheck {stop : ℕ} (h : trialCheck stop = true) :
    ∃ l, trialDivision stop = some l ∧ List.Sorted (· < ·) l ∧
      (∀ p ∈ l, Nat.Prime p ∧ Odd p) ∧
      ∀ p : ℕ, Nat.Prime p → Odd p → p ≤ Nat.sqrt stop → p ∈ l := by
  unfold trialCheck at h
  cases htd : trialDivision stop with
  | none =>
    rw [htd] at h
    simp at h
  | some l =>
    rw [htd] at h
    simp only [Bool.and_eq_true, List.all_eq_true, Bool.or_eq_true, Bool.not_eq_true',
      Bool.and_eq_false_iff, decide_eq_true_eq, decide_eq_false_iff_not] at h
    obtain ⟨⟨hsorted, hall⟩, hcomp⟩ := h
    refine ⟨l, rfl, hsorted, ?_, ?_⟩
    · intro p hp
      obtain ⟨h1, h2⟩ := hall p hp
      exact ⟨h1, Nat.odd_iff.mpr h2⟩
    · intro p hp hpo hple
      have hmemr : p ∈ List.range (isqrtNat stop + 1) := by
        rw [List.mem_range, isqrtNat_eq]
        omega
      rcases hcomp p hmemr with hbad | hgood
      · rcases hbad with hb | hb
        · exact absurd hp (by simpa using hb)
        · rw [Nat.odd_iff] at hpo
          simp [hpo] at hb
      · exact hgood

theorem trialCheck_small : ∀ stop : ℕ, stop < 64 → trialCheck stop = true := by decide

/-- C9: for every generator stop value, the trial-division loop of
`PrimeSieve::sieve` never runs past the end of `primes16Bit`: every inner scan
terminates, at an element of the vector, and the vector holds exactly primes,
in ascending order, including every odd prime up to the fourth root of the
generator's stop number (`keep = √stop` of the loop's own bound `stop`). -/
theorem trial_division_inbounds_c9 (stop : ℕ) :
    ∃ l, trialDivision stop = some l ∧ List.Sorted (· < ·) l ∧
      (∀ p ∈ l, Nat.Prime p ∧ Odd p) ∧
      ∀ p : ℕ, Nat.Prime p → Odd p → p ≤ Nat.sqrt stop → p ∈ l := by
  rcases Nat.lt_or_ge stop 64 with hs | hs
  · exact of_trialCheck (trialCheck_small stop hs)
  · exact trial_division_large hs

end Primesieve
